import Mathlib

/-!
Shallow embedding of the WTF-8 module (`src/sgx_tstd/src/sys_common/wtf8.rs`).

Byte strings are modelled as `List Nat` (each element a byte value), 16-bit
code units as `Nat` values below 2^16, and code points as `Nat` values below
0x110000.  Every function mirrors the corresponding Rust function; loops are
expressed as recursion on the remaining input.
-/

namespace Wtf8

/-! ### Bit-arithmetic bridges

The Rust code uses `&`, `|`, `<<`, `>>` on integers.  These lemmas convert
those operations into `/ % * +` arithmetic, which `omega` can discharge. -/

/-! ### Code points and the surrogate codec -/

/-- Models `struct CodePoint { value: u32 }`. -/
structure CodePoint where
  value : Nat
deriving DecidableEq

/-- Models `CodePoint::from_u32`: `Some` iff `value ≤ 0x10FFFF`. -/
def CodePoint.from_u32 (value : Nat) : Option CodePoint :=
  if value ≤ 0x10FFFF then some ⟨value⟩ else none

/-- Models `CodePoint::to_u32`. -/
def CodePoint.to_u32 (c : CodePoint) : Nat := c.value

/-- Lead surrogate range 0xD800–0xDBFF. -/
def isLeadSurrogate (c : Nat) : Bool := 0xD800 ≤ c && c ≤ 0xDBFF

/-- Trail surrogate range 0xDC00–0xDFFF. -/
def isTrailSurrogate (c : Nat) : Bool := 0xDC00 ≤ c && c ≤ 0xDFFF

/-- Surrogate range 0xD800–0xDFFF. -/
def isSurrogate (c : Nat) : Bool := 0xD800 ≤ c && c ≤ 0xDFFF

/-- The substitution performed by the lossy conversions: a surrogate becomes
U+FFFD, anything else is unchanged. -/
def replace_surrogate (c : Nat) : Nat := if isSurrogate c then 0xFFFD else c

/-- Models `decode_surrogate(second_byte, third_byte)`:
`0xD800 | (second_byte as u16 & 0x3F) << 6 | third_byte as u16 & 0x3F`. -/
def decode_surrogate (second_byte third_byte : Nat) : Nat :=
  (0xD800 ||| ((second_byte &&& 0x3F) <<< 6)) ||| (third_byte &&& 0x3F)

/-- Models `decode_surrogate_pair(lead, trail)`:
`0x10000 + ((((lead - 0xD800) as u32) << 10) | (trail - 0xDC00) as u32)`. -/
def decode_surrogate_pair (lead trail : Nat) : Nat :=
  0x10000 + (((lead - 0xD800) <<< 10) ||| (trail - 0xDC00))

/-- Models `char::encode_utf8` from `core` (used by
`Wtf8Buf::push_code_point_unchecked` via `char::from_u32_unchecked`, hence
defined for every code-point value, surrogates included). -/
def encode_utf8 (code : Nat) : List Nat :=
  if code < 0x80 then [code]
  else if code < 0x800 then
    [((code >>> 6) &&& 0x1F) ||| 0xC0,
     (code &&& 0x3F) ||| 0x80]
  else if code < 0x10000 then
    [((code >>> 12) &&& 0x0F) ||| 0xE0,
     ((code >>> 6) &&& 0x3F) ||| 0x80,
     (code &&& 0x3F) ||| 0x80]
  else
    [((code >>> 18) &&& 0x07) ||| 0xF0,
     ((code >>> 12) &&& 0x3F) ||| 0x80,
     ((code >>> 6) &&& 0x3F) ||| 0x80,
     (code &&& 0x3F) ||| 0x80]

/-! ### The code-point decoder (`core::str::next_code_point`) -/

/-- Models `utf8_first_byte(byte, width)`: `byte & (0x7F >> width)`. -/
def utf8_first_byte (byte width : Nat) : Nat := byte &&& (0x7F >>> width)

/-- Models `utf8_acc_cont_byte(ch, byte)`: `(ch << 6) | (byte & CONT_MASK)`. -/
def utf8_acc_cont_byte (ch byte : Nat) : Nat := (ch <<< 6) ||| (byte &&& 0x3F)

/-- Models `core::str::next_code_point` (used by `Wtf8CodePoints::next`):
decodes one code point from the front of the byte sequence, returning it with
the remaining bytes.  A missing continuation byte reads as 0 (`unwrap_or_0`). -/
def next_code_point (bytes : List Nat) : Option (Nat × List Nat) :=
  match bytes with
  | [] => none
  | x :: rest =>
    if x < 128 then some (x, rest) else
    let init := utf8_first_byte x 2
    let y := rest.headD 0
    let rest1 := rest.drop 1
    let ch := utf8_acc_cont_byte init y
    if 0xE0 ≤ x then
      let z := rest1.headD 0
      let rest2 := rest1.drop 1
      let y_z := utf8_acc_cont_byte (y &&& 0x3F) z
      let ch' := (init <<< 12) ||| y_z
      if 0xF0 ≤ x then
        let w := rest2.headD 0
        let rest3 := rest2.drop 1
        some (((init &&& 7) <<< 18) ||| utf8_acc_cont_byte y_z w, rest3)
      else some (ch', rest2)
    else some (ch, rest1)

/-- Models the `Wtf8CodePoints` iterator run to exhaustion: the sequence of
code-point values of a byte sequence. -/
def code_points (l : List Nat) : List Nat :=
  match h : next_code_point l with
  | none => []
  | some (c, rest) => c :: code_points rest
termination_by l.length
decreasing_by
  cases l with
  | nil => simp [next_code_point] at h
  | cons x rest =>
    simp only [next_code_point] at h
    split at h
    · obtain ⟨-, rfl⟩ := Prod.mk.injEq .. ▸ Option.some.injEq .. ▸ h
      simp
    · split at h <;> [skip; skip] <;> first
        | (split at h
           · obtain ⟨-, rfl⟩ := Prod.mk.injEq .. ▸ Option.some.injEq .. ▸ h
             simp only [List.length_drop, List.length_cons]
             omega
           · obtain ⟨-, rfl⟩ := Prod.mk.injEq .. ▸ Option.some.injEq .. ▸ h
             simp only [List.length_drop, List.length_cons]
             omega)
        | (obtain ⟨-, rfl⟩ := Prod.mk.injEq .. ▸ Option.some.injEq .. ▸ h
           simp only [List.length_drop, List.length_cons]
           omega)

/-! ### The surrogate scanner (`Wtf8::next_surrogate`) -/

/-- Models the loop of `Wtf8::next_surrogate`: scans the remaining bytes,
`pos` being the absolute position of their first byte, and returns the
position and value of the first surrogate found.  `next_surrogate bytes 0`
is the source's `self.next_surrogate(0)`. -/
def next_surrogate : List Nat → Nat → Option (Nat × Nat)
  | [], _ => none
  | b :: rest, pos =>
    if b < 0x80 then next_surrogate rest (pos + 1)
    else if b < 0xE0 then next_surrogate (rest.drop 1) (pos + 2)
    else if b = 0xED then
      match rest with
      | b2 :: b3 :: rest3 =>
        if 0xA0 ≤ b2 then some (pos, decode_surrogate b2 b3)
        else next_surrogate rest3 (pos + 3)
      | _ => next_surrogate [] (pos + 3)
    else if b < 0xF0 then next_surrogate (rest.drop 2) (pos + 3)
    else next_surrogate (rest.drop 3) (pos + 4)
termination_by l _ => l.length
decreasing_by
  all_goals (simp only [List.length_drop, List.length_cons, List.length_nil]; omega)

/-- Models `Wtf8::final_lead_surrogate`: inspects the last 3 bytes. -/
def final_lead_surrogate (bytes : List Nat) : Option Nat :=
  if bytes.length < 3 then none
  else match bytes.drop (bytes.length - 3) with
    | [a, b2, b3] =>
      if a = 0xED ∧ 0xA0 ≤ b2 ∧ b2 ≤ 0xAF then some (decode_surrogate b2 b3)
      else none
    | _ => none

/-- Models `Wtf8::initial_trail_surrogate`: inspects the first 3 bytes. -/
def initial_trail_surrogate (bytes : List Nat) : Option Nat :=
  if bytes.length < 3 then none
  else match bytes.take 3 with
    | [a, b2, b3] =>
      if a = 0xED ∧ 0xB0 ≤ b2 ∧ b2 ≤ 0xBF then some (decode_surrogate b2 b3)
      else none
    | _ => none

/-! ### Wtf8Buf operations -/

/-- Models `Wtf8Buf::push_code_point_unchecked`: append the UTF-8-style
encoding of the code point, no concatenation check. -/
def push_code_point_unchecked (bytes : List Nat) (code_point : Nat) : List Nat :=
  bytes ++ encode_utf8 code_point

/-- Models `Wtf8Buf::push_char` (a `char` is a non-surrogate scalar value). -/
def push_char (bytes : List Nat) (c : Nat) : List Nat :=
  push_code_point_unchecked bytes c

/-- Models `Wtf8Buf::push_str`: append the UTF-8 bytes of a string slice.
The `&str` argument is modelled by its list of scalar values; its byte
representation is the concatenation of their UTF-8 encodings. -/
def push_str (bytes : List Nat) (other : List Nat) : List Nat :=
  bytes ++ other.flatMap encode_utf8

/-- Models `Wtf8Buf::clear`. -/
def clear (_bytes : List Nat) : List Nat := []

/-- Models `Wtf8Buf::push`: a trail surrogate pairing with a final lead
surrogate replaces it by the combined supplementary code point. -/
def push (bytes : List Nat) (code_point : Nat) : List Nat :=
  if 0xDC00 ≤ code_point ∧ code_point ≤ 0xDFFF then
    match final_lead_surrogate bytes with
    | some lead =>
      (bytes.take (bytes.length - 3)) ++
        encode_utf8 (decode_surrogate_pair lead code_point)
    | none => push_code_point_unchecked bytes code_point
  else push_code_point_unchecked bytes code_point

/-- Models `Wtf8Buf::push_wtf8`: newly paired surrogates at the boundary are
replaced by the combined supplementary code point. -/
def push_wtf8 (bytes other : List Nat) : List Nat :=
  match final_lead_surrogate bytes, initial_trail_surrogate other with
  | some lead, some trail =>
    (bytes.take (bytes.length - 3)) ++
      encode_utf8 (decode_surrogate_pair lead trail) ++ other.drop 3
  | _, _ => bytes ++ other

/-- Models `is_code_point_boundary`. -/
def is_code_point_boundary (bytes : List Nat) (index : Nat) : Bool :=
  if index = bytes.length then true
  else match bytes.get? index with
    | none => false
    | some b => b < 128 || 192 ≤ b

/-- Models `Wtf8Buf::truncate`: `none` models the `assert!` panic when
`new_len` is not a code-point boundary. -/
def truncate (bytes : List Nat) (new_len : Nat) : Option (List Nat) :=
  if is_code_point_boundary bytes new_len then some (bytes.take new_len)
  else none

/-- Models `ops::Index<ops::Range<usize>> for Wtf8`: `none` models the
`slice_error_fail` panic; `some` returns the bytes of `[begin, end)`
(`slice_unchecked`). -/
def index_range (s : List Nat) (begin_ end_ : Nat) : Option (List Nat) :=
  if begin_ ≤ end_ ∧ is_code_point_boundary s begin_
      ∧ is_code_point_boundary s end_ then
    some ((s.drop begin_).take (end_ - begin_))
  else none

/-- Models `Wtf8Buf::into_string`: `Except.ok` with the same bytes if no
surrogate is present, `Except.error` carrying the unchanged buffer else. -/
def into_string (bytes : List Nat) : Except (List Nat) (List Nat) :=
  match next_surrogate bytes 0 with
  | none => Except.ok bytes
  | some _ => Except.error bytes

/-- Byte content of `UTF8_REPLACEMENT_CHARACTER` (`"\u{FFFD}"`). -/
def UTF8_REPLACEMENT_CHARACTER : List Nat := [0xEF, 0xBF, 0xBD]

/-- Models the loop of `Wtf8::to_string_lossy` (and `into_string_lossy`):
replace each surrogate encoding, from the current scan point on, by the
replacement character's bytes. -/
def lossy_loop (l : List Nat) : List Nat :=
  match h : next_surrogate l 0 with
  | none => l
  | some (p, _) =>
    l.take p ++ UTF8_REPLACEMENT_CHARACTER ++ lossy_loop (l.drop (p + 3))
termination_by l.length
decreasing_by
  cases l with
  | nil => exact absurd h (by simp [next_surrogate])
  | cons b rest => simp only [List.length_drop, List.length_cons]; omega

/-- Models `Wtf8::to_string_lossy`: the byte content of the returned text
(`Cow::Borrowed` of the unchanged bytes when no surrogate is present). -/
def to_string_lossy (bytes : List Nat) : List Nat :=
  match next_surrogate bytes 0 with
  | none => bytes
  | some _ => lossy_loop bytes

/-! ### UTF-16: decoding (`char::decode_utf16`) and encoding -/

/-- Models the sequence of results of `char::decode_utf16` as pushed by
`Wtf8Buf::from_wide`: `Ok(scalar)` and `Err(unpaired surrogate)` both
contribute their code-point value. -/
def decode_utf16 : List Nat → List Nat
  | [] => []
  | [u] => [u]
  | u :: u2 :: rest =>
    if u < 0xD800 ∨ 0xDFFF < u then u :: decode_utf16 (u2 :: rest)
    else if 0xDC00 ≤ u then u :: decode_utf16 (u2 :: rest)
    else if 0xDC00 ≤ u2 ∧ u2 ≤ 0xDFFF then
      ((((u - 0xD800) <<< 10) ||| (u2 - 0xDC00)) + 0x10000) :: decode_utf16 rest
    else u :: decode_utf16 (u2 :: rest)

/-- Models `Wtf8Buf::from_wide`: pushes each decoded item's encoding
(`push_char` for scalars, `push_code_point_unchecked` for unpaired
surrogates — both append the code point's UTF-8-style encoding). -/
def from_wide (v : List Nat) : List Nat :=
  (decode_utf16 v).foldl push_code_point_unchecked []

/-- Models `char::encode_utf16` on a code-point value. -/
def encode_utf16_char (code : Nat) : List Nat :=
  if code &&& 0xFFFF = code then [code]
  else
    [0xD800 ||| ((code - 0x10000) >>> 10),
     0xDC00 ||| ((code - 0x10000) &&& 0x3FF)]

/-- Models `Wtf8::encode_wide` run to exhaustion: the `EncodeWide` iterator
emits, for each code point, its `encode_utf16` units (buffering the second
unit of a pair in `extra`), which flattens to this concatenation. -/
def encode_wide (bytes : List Nat) : List Nat :=
  (code_points bytes).flatMap encode_utf16_char

/-! ### Well-formed WTF-8 -/

/-- Adjacent code points `a, b` do not form a newly-paired surrogate pair. -/
def NoJoinPair (a b : Nat) : Prop :=
  ¬(isLeadSurrogate a ∧ isTrailSurrogate b)

/-- Well-formed WTF-8: the byte sequence is a concatenation of encodings of
code points (each `≤ 0x10FFFF`), no lead-surrogate encoding immediately
followed by a trail-surrogate encoding. -/
def WfWtf8 (bytes : List Nat) : Prop :=
  ∃ cps : List Nat, (∀ c ∈ cps, c ≤ 0x10FFFF) ∧
    List.Chain' NoJoinPair cps ∧
    bytes = cps.flatMap encode_utf8

/-! ### Shape lemmas about `encode_utf8` -/

/-! ### Lemmas -/

theorem lor_eq_add {a b : Nat} (k : Nat) (ha : a % 2 ^ k = 0) (hb : b < 2 ^ k) :
    a ||| b = a + b := by
  obtain ⟨q, rfl⟩ := Nat.dvd_of_mod_eq_zero ha
  exact (Nat.mul_add_lt_is_or hb q).symm

theorem and_7 (x : Nat) : x &&& 7 = x % 8 := Nat.and_pow_two_sub_one_eq_mod x 3

theorem and_15 (x : Nat) : x &&& 15 = x % 16 := Nat.and_pow_two_sub_one_eq_mod x 4

theorem and_31 (x : Nat) : x &&& 31 = x % 32 := Nat.and_pow_two_sub_one_eq_mod x 5

theorem and_63 (x : Nat) : x &&& 63 = x % 64 := Nat.and_pow_two_sub_one_eq_mod x 6

theorem and_1023 (x : Nat) : x &&& 1023 = x % 1024 := Nat.and_pow_two_sub_one_eq_mod x 10

theorem and_65535 (x : Nat) : x &&& 65535 = x % 65536 := Nat.and_pow_two_sub_one_eq_mod x 16

theorem shiftRight_6 (x : Nat) : x >>> 6 = x / 64 := Nat.shiftRight_eq_div_pow x 6

theorem shiftRight_10 (x : Nat) : x >>> 10 = x / 1024 := Nat.shiftRight_eq_div_pow x 10

theorem shiftRight_12 (x : Nat) : x >>> 12 = x / 4096 := Nat.shiftRight_eq_div_pow x 12

theorem shiftRight_18 (x : Nat) : x >>> 18 = x / 262144 := Nat.shiftRight_eq_div_pow x 18

/-- `encode_utf8` in plain arithmetic form. -/
theorem encode_utf8_eq (code : Nat) : encode_utf8 code =
    if code < 0x80 then [code]
    else if code < 0x800 then
      [0xC0 + code / 64 % 32, 0x80 + code % 64]
    else if code < 0x10000 then
      [0xE0 + code / 4096 % 16, 0x80 + code / 64 % 64, 0x80 + code % 64]
    else
      [0xF0 + code / 262144 % 8, 0x80 + code / 4096 % 64,
       0x80 + code / 64 % 64, 0x80 + code % 64] := by
  unfold encode_utf8
  have h1 : ∀ d : Nat, d < 32 → d ||| 0xC0 = 0xC0 + d := by
    intro d hd
    rw [Nat.lor_comm]
    exact (lor_eq_add 6 (by norm_num) (by omega)).trans (by ring)
  have h2 : ∀ d : Nat, d < 64 → d ||| 0x80 = 0x80 + d := by
    intro d hd
    rw [Nat.lor_comm]
    exact (lor_eq_add 6 (by norm_num) (by omega)).trans (by ring)
  have h3 : ∀ d : Nat, d < 16 → d ||| 0xE0 = 0xE0 + d := by
    intro d hd
    rw [Nat.lor_comm]
    exact (lor_eq_add 4 (by norm_num) (by omega)).trans (by ring)
  have h4 : ∀ d : Nat, d < 8 → d ||| 0xF0 = 0xF0 + d := by
    intro d hd
    rw [Nat.lor_comm]
    exact (lor_eq_add 3 (by norm_num) (by omega)).trans (by ring)
  split
  · rfl
  · split
    · rw [and_63, and_31, shiftRight_6, h1 _ (by omega), h2 _ (by omega)]
    · split
      · rw [and_63, and_63, and_15, shiftRight_6, shiftRight_12,
          h3 _ (by omega), h2 _ (by omega), h2 _ (by omega)]
      · rw [and_63, and_63, and_63, and_7, shiftRight_6, shiftRight_12,
          shiftRight_18, h4 _ (by omega), h2 _ (by omega), h2 _ (by omega),
          h2 _ (by omega)]

theorem utf8_acc_cont_byte_eq (ch byte : Nat) :
    utf8_acc_cont_byte ch byte = ch * 64 + byte % 64 := by
  unfold utf8_acc_cont_byte
  rw [and_63, Nat.shiftLeft_eq]
  exact (lor_eq_add 6 (by simp [Nat.mul_mod_left]) (by omega)).trans (by norm_num)

theorem next_code_point_length {l : List Nat} {c : Nat} {l' : List Nat}
    (h : next_code_point l = some (c, l')) : l'.length < l.length := by
  match l with
  | [] => simp [next_code_point] at h
  | x :: rest =>
    simp only [next_code_point] at h
    split at h
    · obtain ⟨rfl, rfl⟩ := Prod.mk.injEq .. ▸ Option.some.injEq .. ▸ h
      simp
    · split at h <;> [skip; skip] <;> first
        | (split at h
           · obtain ⟨-, rfl⟩ := Prod.mk.injEq .. ▸ Option.some.injEq .. ▸ h
             simp only [List.length_drop, List.length_cons]
             omega
           · obtain ⟨-, rfl⟩ := Prod.mk.injEq .. ▸ Option.some.injEq .. ▸ h
             simp only [List.length_drop, List.length_cons]
             omega)
        | (obtain ⟨-, rfl⟩ := Prod.mk.injEq .. ▸ Option.some.injEq .. ▸ h
           simp only [List.length_drop, List.length_cons]
           omega)

theorem code_points_of_none {l : List Nat} (h : next_code_point l = none) :
    code_points l = [] := by
  conv_lhs => rw [code_points.eq_def]
  split <;> simp_all

theorem code_points_of_some {l : List Nat} {c : Nat} {rest : List Nat}
    (h : next_code_point l = some (c, rest)) :
    code_points l = c :: code_points rest := by
  conv_lhs => rw [code_points.eq_def]
  split <;> simp_all

/-- Decoding inverts encoding: `next_code_point` applied to
`encode_utf8 c ++ rest` yields `c` and `rest`, for every code point `c`. -/
theorem mask_0x7F_shr_2 : (0x7F : Nat) >>> 2 = 31 := by decide

theorem next_code_point_encode (c : Nat) (hc : c ≤ 0x10FFFF) (rest : List Nat) :
    next_code_point (encode_utf8 c ++ rest) = some (c, rest) := by
  rw [encode_utf8_eq]
  rcases Nat.lt_or_ge c 0x80 with h1 | h1
  · rw [if_pos h1]
    show next_code_point (c :: rest) = some (c, rest)
    simp only [next_code_point]
    rw [if_pos h1]
  rcases Nat.lt_or_ge c 0x800 with h2 | h2
  · rw [if_neg (show ¬ c < 0x80 by omega), if_pos h2]
    show next_code_point ((0xC0 + c / 64 % 32) :: (0x80 + c % 64) :: rest)
        = some (c, rest)
    simp only [next_code_point, utf8_first_byte, mask_0x7F_shr_2]
    rw [if_neg (show ¬ 0xC0 + c / 64 % 32 < 128 by omega),
      if_neg (show ¬ 0xE0 ≤ 0xC0 + c / 64 % 32 by omega)]
    simp only [List.headD_cons, List.drop_succ_cons, List.drop_zero,
      utf8_acc_cont_byte_eq, and_31]
    simp only [Option.some.injEq, Prod.mk.injEq]
    exact ⟨by omega, trivial⟩
  rcases Nat.lt_or_ge c 0x10000 with h3 | h3
  · rw [if_neg (show ¬ c < 0x80 by omega), if_neg (show ¬ c < 0x800 by omega),
      if_pos h3]
    show next_code_point
        ((0xE0 + c / 4096 % 16) :: (0x80 + c / 64 % 64) :: (0x80 + c % 64) :: rest)
        = some (c, rest)
    simp only [next_code_point, utf8_first_byte, mask_0x7F_shr_2]
    rw [if_neg (show ¬ 0xE0 + c / 4096 % 16 < 128 by omega),
      if_pos (show 0xE0 ≤ 0xE0 + c / 4096 % 16 by omega),
      if_neg (show ¬ 0xF0 ≤ 0xE0 + c / 4096 % 16 by omega)]
    simp only [List.headD_cons, List.drop_succ_cons, List.drop_zero,
      utf8_acc_cont_byte_eq, and_63, and_31]
    rw [Nat.shiftLeft_eq, lor_eq_add 12 (by simp [Nat.mul_mod_left]) (by omega)]
    simp only [Option.some.injEq, Prod.mk.injEq]
    exact ⟨by omega, trivial⟩
  · rw [if_neg (show ¬ c < 0x80 by omega), if_neg (show ¬ c < 0x800 by omega),
      if_neg (show ¬ c < 0x10000 by omega)]
    show next_code_point
        ((0xF0 + c / 262144 % 8) :: (0x80 + c / 4096 % 64) ::
          (0x80 + c / 64 % 64) :: (0x80 + c % 64) :: rest) = some (c, rest)
    simp only [next_code_point, utf8_first_byte, mask_0x7F_shr_2]
    rw [if_neg (show ¬ 0xF0 + c / 262144 % 8 < 128 by omega),
      if_pos (show 0xE0 ≤ 0xF0 + c / 262144 % 8 by omega),
      if_pos (show 0xF0 ≤ 0xF0 + c / 262144 % 8 by omega)]
    simp only [List.headD_cons, List.drop_succ_cons, List.drop_zero,
      utf8_acc_cont_byte_eq, and_63, and_31, and_7]
    rw [Nat.shiftLeft_eq, lor_eq_add 18 (by simp [Nat.mul_mod_left]) (by omega)]
    simp only [Option.some.injEq, Prod.mk.injEq]
    exact ⟨by omega, trivial⟩

/-- `code_points` of a concatenation of encodings recovers the code points. -/
theorem code_points_bind (cps : List Nat) (h : ∀ c ∈ cps, c ≤ 0x10FFFF) :
    code_points (cps.flatMap encode_utf8) = cps := by
  induction cps with
  | nil => exact code_points_of_none rfl
  | cons c cps ih =>
    rw [List.flatMap_cons,
      code_points_of_some (next_code_point_encode c (h c (by simp)) _)]
    rw [ih fun x hx => h x (by simp [hx])]

theorem encode_utf8_ne_nil (c : Nat) : encode_utf8 c ≠ [] := by
  rw [encode_utf8_eq]
  split_ifs <;> simp

theorem encode_utf8_length_pos (c : Nat) : 0 < (encode_utf8 c).length :=
  List.length_pos.mpr (encode_utf8_ne_nil c)

theorem encode_utf8_length_le (c : Nat) : (encode_utf8 c).length ≤ 4 := by
  rw [encode_utf8_eq]
  split_ifs <;> simp

/-- Every byte of an encoding after the first is a continuation byte. -/
theorem encode_utf8_cont (c i : Nat) (h1 : 1 ≤ i)
    (h2 : i < (encode_utf8 c).length) :
    ∃ b, (encode_utf8 c).get? i = some b ∧ 0x80 ≤ b ∧ b < 0xC0 := by
  rw [encode_utf8_eq] at h2 ⊢
  split_ifs at h2 ⊢ with e1 e2 e3
  · simp at h2
    omega
  · simp at h2
    have : i = 1 := by omega
    subst this
    exact ⟨_, rfl, by omega, by omega⟩
  · simp at h2
    match i, h1, h2 with
    | 1, _, _ => exact ⟨_, rfl, by omega, by omega⟩
    | 2, _, _ => exact ⟨_, rfl, by omega, by omega⟩
  · simp at h2
    match i, h1, h2 with
    | 1, _, _ => exact ⟨_, rfl, by omega, by omega⟩
    | 2, _, _ => exact ⟨_, rfl, by omega, by omega⟩
    | 3, _, _ => exact ⟨_, rfl, by omega, by omega⟩

/-- The first byte of an encoding is never a continuation byte. -/
theorem encode_utf8_head_not_cont (c : Nat) (hc : c ≤ 0x10FFFF) :
    ∃ b t, encode_utf8 c = b :: t ∧ (b < 0x80 ∨ 0xC0 ≤ b) := by
  rw [encode_utf8_eq]
  split_ifs with e1 e2 e3
  · exact ⟨c, _, rfl, Or.inl e1⟩
  · exact ⟨_, _, rfl, Or.inr (by omega)⟩
  · exact ⟨_, _, rfl, Or.inr (by omega)⟩
  · exact ⟨_, _, rfl, Or.inr (by omega)⟩

/-- The encoding of a surrogate, explicitly. -/
theorem encode_utf8_surrogate {c : Nat} (h1 : 0xD800 ≤ c) (h2 : c ≤ 0xDFFF) :
    encode_utf8 c = [0xED, 0x80 + c / 64 % 64, 0x80 + c % 64] := by
  rw [encode_utf8_eq, if_neg (by omega), if_neg (by omega), if_pos (by omega)]
  have : c / 4096 % 16 = 13 := by omega
  rw [this]

/-- An encoding starts with 0xED exactly for code points in [0xD000, 0xDFFF]. -/
theorem encode_utf8_head_ED {c : Nat} (hc : c ≤ 0x10FFFF)
    (h : (encode_utf8 c).get? 0 = some 0xED) :
    0xD000 ≤ c ∧ c ≤ 0xDFFF ∧
      encode_utf8 c = [0xED, 0x80 + c / 64 % 64, 0x80 + c % 64] := by
  rw [encode_utf8_eq] at h
  split_ifs at h with e1 e2 e3
  · simp at h
    omega
  · simp at h
    omega
  · simp at h
    have hc' : 0xD000 ≤ c ∧ c ≤ 0xDFFF := by omega
    refine ⟨hc'.1, hc'.2, ?_⟩
    rw [encode_utf8_eq, if_neg (by omega), if_neg (by omega), if_pos (by omega)]
    have : c / 4096 % 16 = 13 := by omega
    rw [this]
  · simp at h
    omega

/-- `0xD800 | x` for `x` with bit 11 set and below 2^12. -/
theorem lor_D800 (x : Nat) (hx1 : 0x800 ≤ x) (hx2 : x < 0x1000) :
    0xD800 ||| x = 0xD000 + x := by
  obtain ⟨y, rfl⟩ : ∃ y, x = 0x800 + y := ⟨x - 0x800, by omega⟩
  have e2 : (0x800 : Nat) ||| y = 0x800 + y := lor_eq_add 11 (by norm_num) (by omega)
  have e1 : (0xD800 : Nat) = 0xD000 ||| 0x800 := by decide
  rw [← e2, e1, Nat.or_assoc, ← Nat.or_assoc 0x800 0x800, Nat.or_self, e2]
  exact lor_eq_add 12 (by norm_num) (by omega)

/-- `decode_surrogate` inverts the surrogate encoding. -/
theorem decode_surrogate_encode {c : Nat} (h1 : 0xD800 ≤ c) (h2 : c ≤ 0xDFFF) :
    decode_surrogate (0x80 + c / 64 % 64) (0x80 + c % 64) = c := by
  unfold decode_surrogate
  rw [and_63, and_63, Nat.shiftLeft_eq]
  have hm2 : (0x80 + c / 64 % 64) % 64 = c / 64 % 64 := by omega
  have hm3 : (0x80 + c % 64) % 64 = c % 64 := by omega
  rw [hm2, hm3]
  have h26 : (2 : Nat) ^ 6 = 64 := by norm_num
  rw [h26, lor_D800 (c / 64 % 64 * 64) (by omega) (by omega),
    lor_eq_add 6 (by rw [h26]; omega) (by rw [h26]; omega)]
  omega

/-- Arithmetic form of `decode_surrogate_pair`. -/
theorem decode_surrogate_pair_eq {lead trail : Nat} (h1 : 0xD800 ≤ lead)
    (h2 : lead ≤ 0xDBFF) (h3 : 0xDC00 ≤ trail) (h4 : trail ≤ 0xDFFF) :
    decode_surrogate_pair lead trail
      = 0x10000 + (lead - 0xD800) * 1024 + (trail - 0xDC00) := by
  unfold decode_surrogate_pair
  rw [Nat.shiftLeft_eq, lor_eq_add 10 (by simp [Nat.mul_mod_left]) (by omega)]
  ring

theorem decode_surrogate_pair_range {lead trail : Nat} (h1 : 0xD800 ≤ lead)
    (h2 : lead ≤ 0xDBFF) (h3 : 0xDC00 ≤ trail) (h4 : trail ≤ 0xDFFF) :
    0x10000 ≤ decode_surrogate_pair lead trail
      ∧ decode_surrogate_pair lead trail ≤ 0x10FFFF := by
  rw [decode_surrogate_pair_eq h1 h2 h3 h4]
  omega

theorem isSurrogate_iff {c : Nat} : isSurrogate c ↔ 0xD800 ≤ c ∧ c ≤ 0xDFFF := by
  simp [isSurrogate]

theorem isLeadSurrogate_iff {c : Nat} :
    isLeadSurrogate c ↔ 0xD800 ≤ c ∧ c ≤ 0xDBFF := by
  simp [isLeadSurrogate]

theorem isTrailSurrogate_iff {c : Nat} :
    isTrailSurrogate c ↔ 0xDC00 ≤ c ∧ c ≤ 0xDFFF := by
  simp [isTrailSurrogate]

/-! ### Scanner characterization on well-formed input -/

theorem next_surrogate_nil (pos : Nat) : next_surrogate [] pos = none := by
  simp [next_surrogate]

theorem next_surrogate_cons (b : Nat) (rest : List Nat) (pos : Nat) :
    next_surrogate (b :: rest) pos =
      if b < 0x80 then next_surrogate rest (pos + 1)
      else if b < 0xE0 then next_surrogate (rest.drop 1) (pos + 2)
      else if b = 0xED then
        match rest with
        | b2 :: b3 :: rest3 =>
          if 0xA0 ≤ b2 then some (pos, decode_surrogate b2 b3)
          else next_surrogate rest3 (pos + 3)
        | _ => next_surrogate [] (pos + 3)
      else if b < 0xF0 then next_surrogate (rest.drop 2) (pos + 3)
      else next_surrogate (rest.drop 3) (pos + 4) := by
  rw [next_surrogate.eq_def]

/-- `next_surrogate` on at least three explicit bytes, fully reduced. -/
theorem next_surrogate_cons3 (b b2 b3 : Nat) (rest : List Nat) (pos : Nat) :
    next_surrogate (b :: b2 :: b3 :: rest) pos =
      if b < 0x80 then next_surrogate (b2 :: b3 :: rest) (pos + 1)
      else if b < 0xE0 then next_surrogate (b3 :: rest) (pos + 2)
      else if b = 0xED then
        (if 0xA0 ≤ b2 then some (pos, decode_surrogate b2 b3)
         else next_surrogate rest (pos + 3))
      else if b < 0xF0 then next_surrogate rest (pos + 3)
      else next_surrogate (rest.drop 1) (pos + 4) := by
  rw [next_surrogate_cons]
  rfl

/-- The scanner steps over the encoding of a non-surrogate code point. -/
theorem next_surrogate_skip {c : Nat} (hc : c ≤ 0x10FFFF) (hs : ¬ isSurrogate c)
    (l : List Nat) (pos : Nat) :
    next_surrogate (encode_utf8 c ++ l) pos
      = next_surrogate l (pos + (encode_utf8 c).length) := by
  rw [isSurrogate_iff] at hs
  rw [encode_utf8_eq]
  rcases Nat.lt_or_ge c 0x80 with h1 | h1
  · rw [if_pos h1]
    show next_surrogate (c :: l) pos = next_surrogate l (pos + 1)
    rw [next_surrogate_cons, if_pos h1]
  rcases Nat.lt_or_ge c 0x800 with h2 | h2
  · rw [if_neg (show ¬ c < 0x80 by omega), if_pos h2]
    show next_surrogate ((0xC0 + c / 64 % 32) :: (0x80 + c % 64) :: l) pos
        = next_surrogate l (pos + 2)
    rw [next_surrogate_cons, if_neg (show ¬ 0xC0 + c / 64 % 32 < 0x80 by omega),
      if_pos (show 0xC0 + c / 64 % 32 < 0xE0 by omega)]
    rfl
  rcases Nat.lt_or_ge c 0x10000 with h3 | h3
  · rw [if_neg (show ¬ c < 0x80 by omega), if_neg (show ¬ c < 0x800 by omega),
      if_pos h3]
    show next_surrogate
        ((0xE0 + c / 4096 % 16) :: (0x80 + c / 64 % 64) :: (0x80 + c % 64) :: l)
        pos = next_surrogate l (pos + 3)
    rcases Nat.lt_or_ge c 0xD000 with h4 | h4
    · rw [next_surrogate_cons3,
        if_neg (show ¬ 0xE0 + c / 4096 % 16 < 0x80 by omega),
        if_neg (show ¬ 0xE0 + c / 4096 % 16 < 0xE0 by omega),
        if_neg (show ¬ 0xE0 + c / 4096 % 16 = 0xED by omega),
        if_pos (show 0xE0 + c / 4096 % 16 < 0xF0 by omega)]
    rcases Nat.lt_or_ge c 0xE000 with h5 | h5
    · rw [next_surrogate_cons3,
        if_neg (show ¬ 0xE0 + c / 4096 % 16 < 0x80 by omega),
        if_neg (show ¬ 0xE0 + c / 4096 % 16 < 0xE0 by omega),
        if_pos (show 0xE0 + c / 4096 % 16 = 0xED by omega),
        if_neg (show ¬ 0xA0 ≤ 0x80 + c / 64 % 64 by omega)]
    · rw [next_surrogate_cons3,
        if_neg (show ¬ 0xE0 + c / 4096 % 16 < 0x80 by omega),
        if_neg (show ¬ 0xE0 + c / 4096 % 16 < 0xE0 by omega),
        if_neg (show ¬ 0xE0 + c / 4096 % 16 = 0xED by omega),
        if_pos (show 0xE0 + c / 4096 % 16 < 0xF0 by omega)]
  · rw [if_neg (show ¬ c < 0x80 by omega), if_neg (show ¬ c < 0x800 by omega),
      if_neg (show ¬ c < 0x10000 by omega)]
    show next_surrogate
        ((0xF0 + c / 262144 % 8) :: (0x80 + c / 4096 % 64) ::
          (0x80 + c / 64 % 64) :: (0x80 + c % 64) :: l) pos
        = next_surrogate l (pos + 4)
    rw [next_surrogate_cons3,
      if_neg (show ¬ 0xF0 + c / 262144 % 8 < 0x80 by omega),
      if_neg (show ¬ 0xF0 + c / 262144 % 8 < 0xE0 by omega),
      if_neg (show ¬ 0xF0 + c / 262144 % 8 = 0xED by omega),
      if_neg (show ¬ 0xF0 + c / 262144 % 8 < 0xF0 by omega)]
    rfl

/-- The scanner reports a surrogate at the start of its encoding. -/
theorem next_surrogate_hit {c : Nat} (h1 : 0xD800 ≤ c) (h2 : c ≤ 0xDFFF)
    (l : List Nat) (pos : Nat) :
    next_surrogate (encode_utf8 c ++ l) pos = some (pos, c) := by
  rw [encode_utf8_surrogate h1 h2]
  show next_surrogate
      (0xED :: (0x80 + c / 64 % 64) :: (0x80 + c % 64) :: l) pos = some (pos, c)
  rw [next_surrogate_cons3, if_neg (show ¬ (0xED : Nat) < 0x80 by omega),
    if_neg (show ¬ (0xED : Nat) < 0xE0 by omega),
    if_pos (show (0xED : Nat) = 0xED from rfl),
    if_pos (show 0xA0 ≤ 0x80 + c / 64 % 64 by omega),
    decode_surrogate_encode h1 h2]

theorem next_surrogate_none (cps : List Nat) (hv : ∀ c ∈ cps, c ≤ 0x10FFFF)
    (hns : ∀ c ∈ cps, ¬ isSurrogate c) (pos : Nat) :
    next_surrogate (cps.flatMap encode_utf8) pos = none := by
  induction cps generalizing pos with
  | nil => simpa using next_surrogate_nil pos
  | cons c cps ih =>
    rw [List.flatMap_cons,
      next_surrogate_skip (hv c (by simp)) (hns c (by simp))]
    exact ih (fun x hx => hv x (by simp [hx])) (fun x hx => hns x (by simp [hx])) _

theorem next_surrogate_first (p : List Nat) (s : Nat) (r : List Nat)
    (hv : ∀ c ∈ p, c ≤ 0x10FFFF) (hns : ∀ c ∈ p, ¬ isSurrogate c)
    (hs1 : 0xD800 ≤ s) (hs2 : s ≤ 0xDFFF) (pos : Nat) :
    next_surrogate ((p ++ s :: r).flatMap encode_utf8) pos
      = some (pos + (p.flatMap encode_utf8).length, s) := by
  induction p generalizing pos with
  | nil =>
    simp only [List.nil_append, List.flatMap_cons, List.flatMap_nil,
      List.length_nil, Nat.add_zero]
    exact next_surrogate_hit hs1 hs2 _ pos
  | cons c p ih =>
    rw [List.cons_append, List.flatMap_cons,
      next_surrogate_skip (hv c (by simp)) (hns c (by simp)),
      ih (fun x hx => hv x (by simp [hx])) (fun x hx => hns x (by simp [hx]))]
    rw [List.flatMap_cons, List.length_append]
    congr 2
    omega

/-- Every code-point list splits at its first surrogate (if any). -/
theorem first_surrogate_decomp (cps : List Nat) :
    (∀ c ∈ cps, ¬ isSurrogate c) ∨
    ∃ p s r, cps = p ++ s :: r ∧ (∀ c ∈ p, ¬ isSurrogate c) ∧ isSurrogate s := by
  induction cps with
  | nil => exact Or.inl (by simp)
  | cons c cps ih =>
    by_cases hc : isSurrogate c
    · exact Or.inr ⟨[], c, cps, rfl, by simp, hc⟩
    · rcases ih with hall | ⟨p, s, r, rfl, hp, hs⟩
      · left
        intro x hx
        rcases List.mem_cons.mp hx with rfl | hx
        · exact hc
        · exact hall x hx
      · refine Or.inr ⟨c :: p, s, r, rfl, ?_, hs⟩
        intro x hx
        rcases List.mem_cons.mp hx with rfl | hx
        · exact hc
        · exact hp x hx

theorem next_surrogate_none_iff (cps : List Nat)
    (hv : ∀ c ∈ cps, c ≤ 0x10FFFF) :
    next_surrogate (cps.flatMap encode_utf8) 0 = none
      ↔ ∀ c ∈ cps, ¬ isSurrogate c := by
  constructor
  · intro h
    rcases first_surrogate_decomp cps with hall | ⟨p, s, r, rfl, hp, hs⟩
    · exact hall
    · rw [isSurrogate_iff] at hs
      rw [next_surrogate_first p s r
        (fun x hx => hv x (by simp [hx])) hp hs.1 hs.2 0] at h
      exact absurd h (by simp)
  · intro h
    exact next_surrogate_none cps hv h 0

/-! ### Lossy conversion -/

theorem lossy_loop_of_none {l : List Nat} (h : next_surrogate l 0 = none) :
    lossy_loop l = l := by
  conv_lhs => rw [lossy_loop.eq_def]
  split <;> simp_all

theorem lossy_loop_of_some {l : List Nat} {p s : Nat}
    (h : next_surrogate l 0 = some (p, s)) :
    lossy_loop l
      = l.take p ++ UTF8_REPLACEMENT_CHARACTER ++ lossy_loop (l.drop (p + 3)) := by
  conv_lhs => rw [lossy_loop.eq_def]
  split <;> simp_all

theorem encode_utf8_replacement :
    encode_utf8 0xFFFD = UTF8_REPLACEMENT_CHARACTER := by decide

theorem replace_surrogate_of_not {c : Nat} (h : ¬ isSurrogate c) :
    replace_surrogate c = c := by
  unfold replace_surrogate
  rw [if_neg (by simpa using h)]

theorem replace_surrogate_of_surrogate {c : Nat} (h : isSurrogate c) :
    replace_surrogate c = 0xFFFD := by
  unfold replace_surrogate
  rw [if_pos (by simpa using h)]

theorem flatMap_encode_no_surrogate (L : List Nat)
    (h : ∀ c ∈ L, ¬ isSurrogate c) :
    (L.map replace_surrogate).flatMap encode_utf8 = L.flatMap encode_utf8 := by
  induction L with
  | nil => rfl
  | cons c L ih =>
    rw [List.map_cons, List.flatMap_cons, List.flatMap_cons,
      ih fun x hx => h x (by simp [hx]),
      replace_surrogate_of_not (h c (by simp))]

theorem lossy_loop_flatMap (cps : List Nat) (hv : ∀ c ∈ cps, c ≤ 0x10FFFF) :
    lossy_loop (cps.flatMap encode_utf8)
      = (cps.map replace_surrogate).flatMap encode_utf8 := by
  suffices H : ∀ n (cps : List Nat), cps.length ≤ n → (∀ c ∈ cps, c ≤ 0x10FFFF) →
      lossy_loop (cps.flatMap encode_utf8)
        = (cps.map replace_surrogate).flatMap encode_utf8 by
    exact H cps.length cps le_rfl hv
  intro n
  induction n with
  | zero =>
    intro cps hlen _
    have : cps = [] := List.eq_nil_of_length_eq_zero (by omega)
    subst this
    exact lossy_loop_of_none (next_surrogate_nil 0)
  | succ n ih =>
    intro cps hlen hv
    rcases first_surrogate_decomp cps with hall | ⟨p, s, r, rfl, hp, hs⟩
    · rw [lossy_loop_of_none ((next_surrogate_none_iff cps hv).mpr hall),
        flatMap_encode_no_surrogate cps hall]
    · have hs' := isSurrogate_iff.mp hs
      have hvp : ∀ c ∈ p, c ≤ 0x10FFFF := fun x hx => hv x (by simp [hx])
      have hvr : ∀ c ∈ r, c ≤ 0x10FFFF := fun x hx => hv x (by simp [hx])
      have hscan := next_surrogate_first p s r hvp hp hs'.1 hs'.2 0
      rw [lossy_loop_of_some hscan]
      have hb : (p ++ s :: r).flatMap encode_utf8
          = (p.flatMap encode_utf8 ++ encode_utf8 s) ++ r.flatMap encode_utf8 := by
        rw [List.flatMap_append, List.flatMap_cons, List.append_assoc]
      have hlen3 : (encode_utf8 s).length = 3 := by
        rw [encode_utf8_surrogate hs'.1 hs'.2]
        rfl
      have htake : ((p ++ s :: r).flatMap encode_utf8).take
          (0 + (p.flatMap encode_utf8).length) = p.flatMap encode_utf8 := by
        rw [Nat.zero_add, hb, List.append_assoc, List.take_left]
      have hdrop : ((p ++ s :: r).flatMap encode_utf8).drop
          (0 + (p.flatMap encode_utf8).length + 3) = r.flatMap encode_utf8 := by
        rw [hb, List.drop_left' (by rw [List.length_append, hlen3]; omega)]
      rw [htake, hdrop, ih r (by simp at hlen; omega) hvr]
      rw [List.map_append, List.map_cons, List.flatMap_append, List.flatMap_cons,
        flatMap_encode_no_surrogate p hp,
        replace_surrogate_of_surrogate hs, encode_utf8_replacement,
        List.append_assoc]

/-! ### UTF-16 lemmas -/

theorem decode_utf16_le (v : List Nat) :
    (∀ u ∈ v, u < 0x10000) → ∀ c ∈ decode_utf16 v, c ≤ 0x10FFFF := by
  induction v using decode_utf16.induct with
  | case1 => simp [decode_utf16]
  | case2 u =>
    intro hv
    simp only [decode_utf16, List.mem_singleton]
    rintro c rfl
    have := hv c (by simp)
    omega
  | case3 u u2 rest h ih =>
    intro hv
    rw [decode_utf16, if_pos h]
    intro c hc
    rcases List.mem_cons.mp hc with rfl | hc
    · have := hv c (by simp)
      omega
    · exact ih (fun x hx => hv x (by simp [hx])) c hc
  | case4 u u2 rest h h2 ih =>
    intro hv
    rw [decode_utf16, if_neg h, if_pos h2]
    intro c hc
    rcases List.mem_cons.mp hc with rfl | hc
    · have := hv c (by simp)
      omega
    · exact ih (fun x hx => hv x (by simp [hx])) c hc
  | case5 u u2 rest h h2 h3 ih =>
    intro hv
    have hu2 := hv u2 (by simp)
    rw [decode_utf16, if_neg h, if_neg h2, if_pos h3]
    intro c hc
    rcases List.mem_cons.mp hc with rfl | hc
    · rw [Nat.shiftLeft_eq, lor_eq_add 10 (by simp [Nat.mul_mod_left]) (by omega)]
      omega
    · exact ih (fun x hx => hv x (by simp [hx])) c hc
  | case6 u u2 rest h h2 h3 ih =>
    intro hv
    rw [decode_utf16, if_neg h, if_neg h2, if_neg h3]
    intro c hc
    rcases List.mem_cons.mp hc with rfl | hc
    · have := hv c (by simp)
      omega
    · exact ih (fun x hx => hv x (by simp [hx])) c hc

/-- Re-encoding the decoded code units reproduces the original units. -/
theorem decode_utf16_encode_utf16 (v : List Nat) :
    (∀ u ∈ v, u < 0x10000) → (decode_utf16 v).flatMap encode_utf16_char = v := by
  induction v using decode_utf16.induct with
  | case1 => intro hv; rfl
  | case2 u =>
    intro hv
    have hu := hv u (by simp)
    simp only [decode_utf16, List.flatMap_cons, List.flatMap_nil, List.append_nil]
    unfold encode_utf16_char
    rw [and_65535, if_pos (by omega)]
  | case3 u u2 rest h ih =>
    intro hv
    have hu := hv u (by simp)
    rw [decode_utf16, if_pos h, List.flatMap_cons,
      ih (fun x hx => hv x (by simp [hx]))]
    unfold encode_utf16_char
    rw [and_65535, if_pos (by omega)]
    rfl
  | case4 u u2 rest h h2 ih =>
    intro hv
    have hu := hv u (by simp)
    rw [decode_utf16, if_neg h, if_pos h2, List.flatMap_cons,
      ih (fun x hx => hv x (by simp [hx]))]
    unfold encode_utf16_char
    rw [and_65535, if_pos (by omega)]
    rfl
  | case5 u u2 rest h h2 h3 ih =>
    intro hv
    have hu := hv u (by simp)
    have hu2 := hv u2 (by simp)
    rw [decode_utf16, if_neg h, if_neg h2, if_pos h3, List.flatMap_cons,
      ih (fun x hx => hv x (by simp [hx]))]
    have hc : (((u - 0xD800) <<< 10) ||| (u2 - 0xDC00)) + 0x10000
        = 0x10000 + (u - 0xD800) * 1024 + (u2 - 0xDC00) := by
      rw [Nat.shiftLeft_eq, lor_eq_add 10 (by simp [Nat.mul_mod_left]) (by omega)]
      ring
    rw [hc]
    unfold encode_utf16_char
    rw [and_65535, if_neg (by omega)]
    have e1 : 0x10000 + (u - 0xD800) * 1024 + (u2 - 0xDC00) - 0x10000
        = (u - 0xD800) * 1024 + (u2 - 0xDC00) := by omega
    rw [e1, shiftRight_10, and_1023]
    have e2 : ((u - 0xD800) * 1024 + (u2 - 0xDC00)) / 1024 = u - 0xD800 := by
      omega
    have e3 : ((u - 0xD800) * 1024 + (u2 - 0xDC00)) % 1024 = u2 - 0xDC00 := by
      omega
    rw [e2, e3, lor_eq_add 10 (by norm_num) (by omega),
      lor_eq_add 10 (by norm_num) (by omega)]
    have e4 : 0xD800 + (u - 0xD800) = u := by omega
    have e5 : 0xDC00 + (u2 - 0xDC00) = u2 := by omega
    rw [e4, e5]
    rfl
  | case6 u u2 rest h h2 h3 ih =>
    intro hv
    have hu := hv u (by simp)
    rw [decode_utf16, if_neg h, if_neg h2, if_neg h3, List.flatMap_cons,
      ih (fun x hx => hv x (by simp [hx]))]
    unfold encode_utf16_char
    rw [and_65535, if_pos (by omega)]
    rfl

theorem foldl_push_code_point_unchecked (L : List Nat) (acc : List Nat) :
    L.foldl push_code_point_unchecked acc = acc ++ L.flatMap encode_utf8 := by
  induction L generalizing acc with
  | nil => simp
  | cons c L ih =>
    rw [List.foldl_cons, ih, List.flatMap_cons]
    simp [push_code_point_unchecked]

theorem from_wide_eq (v : List Nat) :
    from_wide v = (decode_utf16 v).flatMap encode_utf8 := by
  unfold from_wide
  rw [foldl_push_code_point_unchecked]
  rfl

/-! ### Position structure of concatenated encodings -/

/-- Every byte position in a concatenation of encodings is either the start
of a code point's encoding block or holds a continuation byte. -/
theorem flatMap_position (cps : List Nat) :
    ∀ i, i < (cps.flatMap encode_utf8).length →
    (∃ cps₁ c cps₂, cps = cps₁ ++ c :: cps₂
        ∧ (cps₁.flatMap encode_utf8).length = i) ∨
    (∃ b, (cps.flatMap encode_utf8).get? i = some b ∧ 0x80 ≤ b ∧ b < 0xC0) := by
  induction cps with
  | nil => intro i hi; simp at hi
  | cons c cps ih =>
    intro i hi
    rw [List.flatMap_cons] at hi ⊢
    by_cases hlt : i < (encode_utf8 c).length
    · rcases Nat.eq_zero_or_pos i with rfl | hpos
      · exact Or.inl ⟨[], c, cps, rfl, rfl⟩
      · obtain ⟨b, hb, hb1, hb2⟩ := encode_utf8_cont c i hpos hlt
        exact Or.inr ⟨b, by rw [List.get?_append hlt]; exact hb, hb1, hb2⟩
    · have hlen : (encode_utf8 c).length ≤ i := by omega
      have hi' : i - (encode_utf8 c).length < (cps.flatMap encode_utf8).length := by
        rw [List.length_append] at hi
        omega
      rcases ih _ hi' with ⟨cps₁, c', cps₂, rfl, hlen1⟩ | ⟨b, hb, hb1, hb2⟩
      · refine Or.inl ⟨c :: cps₁, c', cps₂, rfl, ?_⟩
        rw [List.flatMap_cons, List.length_append, hlen1]
        omega
      · refine Or.inr ⟨b, ?_, hb1, hb2⟩
        rw [List.get?_append_right hlen]
        exact hb

/-- A byte 0xED in a concatenation of encodings starts a 3-byte block that
encodes a code point in [0xD000, 0xDFFF]. -/
theorem flatMap_block_ED (cps : List Nat) (hv : ∀ c ∈ cps, c ≤ 0x10FFFF)
    (i : Nat) (hED : (cps.flatMap encode_utf8).get? i = some 0xED) :
    ∃ cps₁ c cps₂, cps = cps₁ ++ c :: cps₂
      ∧ (cps₁.flatMap encode_utf8).length = i
      ∧ 0xD000 ≤ c ∧ c ≤ 0xDFFF
      ∧ encode_utf8 c = [0xED, 0x80 + c / 64 % 64, 0x80 + c % 64] := by
  have hi : i < (cps.flatMap encode_utf8).length :=
    List.get?_eq_some.mp hED |>.choose
  rcases flatMap_position cps i hi with
    ⟨cps₁, c, cps₂, rfl, hlen⟩ | ⟨b, hb, hb1, hb2⟩
  · have hvc : c ≤ 0x10FFFF := hv c (by simp)
    have hhead : (encode_utf8 c).get? 0 = some 0xED := by
      rw [List.flatMap_append, List.flatMap_cons,
        List.get?_append_right (by omega), hlen, Nat.sub_self] at hED
      rwa [List.get?_append (encode_utf8_length_pos c)] at hED
    obtain ⟨hc1, hc2, henc⟩ := encode_utf8_head_ED hvc hhead
    exact ⟨cps₁, c, cps₂, rfl, hlen, hc1, hc2, henc⟩
  · rw [hED] at hb
    obtain rfl : (0xED : Nat) = b := by simpa using hb
    omega

theorem flatMap_eq_nil {cps : List Nat}
    (h : cps.flatMap encode_utf8 = []) : cps = [] := by
  cases cps with
  | nil => rfl
  | cons c cps =>
    rw [List.flatMap_cons] at h
    exact absurd (List.append_eq_nil.mp h).1 (encode_utf8_ne_nil c)

/-! ### Characterizing `final_lead_surrogate` and `initial_trail_surrogate` -/

theorem final_lead_of_last (cps₀ : List Nat) {c : Nat} (h1 : 0xD800 ≤ c)
    (h2 : c ≤ 0xDBFF) :
    final_lead_surrogate ((cps₀ ++ [c]).flatMap encode_utf8) = some c := by
  have henc : encode_utf8 c = [0xED, 0x80 + c / 64 % 64, 0x80 + c % 64] :=
    encode_utf8_surrogate h1 (by omega)
  have hb : (cps₀ ++ [c]).flatMap encode_utf8
      = cps₀.flatMap encode_utf8 ++ [0xED, 0x80 + c / 64 % 64, 0x80 + c % 64] := by
    rw [List.flatMap_append, List.flatMap_cons, List.flatMap_nil,
      List.append_nil, henc]
  rw [hb]
  unfold final_lead_surrogate
  rw [if_neg (by rw [List.length_append]; simp)]
  have hdrop : (cps₀.flatMap encode_utf8
        ++ [0xED, 0x80 + c / 64 % 64, 0x80 + c % 64]).drop
      ((cps₀.flatMap encode_utf8
        ++ [0xED, 0x80 + c / 64 % 64, 0x80 + c % 64]).length - 3)
      = [0xED, 0x80 + c / 64 % 64, 0x80 + c % 64] := by
    apply List.drop_left'
    rw [List.length_append]
    simp
  rw [hdrop]
  show (if (0xED : Nat) = 0xED ∧ 0xA0 ≤ 0x80 + c / 64 % 64
      ∧ 0x80 + c / 64 % 64 ≤ 0xAF then
    some (decode_surrogate (0x80 + c / 64 % 64) (0x80 + c % 64)) else none)
    = some c
  rw [if_pos ⟨rfl, by omega, by omega⟩, decode_surrogate_encode h1 (by omega)]

theorem final_lead_of_getLast {cps : List Nat} {l : Nat}
    (hg : cps.getLast? = some l) (h1 : 0xD800 ≤ l) (h2 : l ≤ 0xDBFF) :
    final_lead_surrogate (cps.flatMap encode_utf8) = some l := by
  rcases List.eq_nil_or_concat cps with rfl | ⟨cps₀, a, rfl⟩
  · simp at hg
  · rw [List.concat_eq_append] at hg ⊢
    rw [List.getLast?_concat] at hg
    obtain rfl : a = l := by simpa using hg
    exact final_lead_of_last cps₀ h1 h2

/-- Hard direction: a reported final lead surrogate really is the last code
point of the buffer, encoded in the last 3 bytes. -/
theorem final_lead_some {cps : List Nat} {lead : Nat}
    (hv : ∀ c ∈ cps, c ≤ 0x10FFFF)
    (h : final_lead_surrogate (cps.flatMap encode_utf8) = some lead) :
    ∃ cps₀, cps = cps₀ ++ [lead] ∧ 0xD800 ≤ lead ∧ lead ≤ 0xDBFF
      ∧ (cps₀.flatMap encode_utf8).length
          = (cps.flatMap encode_utf8).length - 3 := by
  unfold final_lead_surrogate at h
  split_ifs at h with hlen
  obtain ⟨a, b2, b3, hmatch⟩ : ∃ a b2 b3,
      (cps.flatMap encode_utf8).drop ((cps.flatMap encode_utf8).length - 3)
        = [a, b2, b3] := by
    apply List.length_eq_three.mp
    rw [List.length_drop]
    omega
  rw [hmatch] at h
  replace h : (if a = 0xED ∧ 0xA0 ≤ b2 ∧ b2 ≤ 0xAF then
      some (decode_surrogate b2 b3) else none) = some lead := h
  split_ifs at h with hguard
  obtain ⟨rfl, hg2, hg3⟩ := hguard
  obtain rfl : decode_surrogate b2 b3 = lead := by simpa using h
  have hgot : (cps.flatMap encode_utf8).get?
      ((cps.flatMap encode_utf8).length - 3) = some 0xED := by
    have := List.get?_drop (cps.flatMap encode_utf8)
      ((cps.flatMap encode_utf8).length - 3) 0
    rw [hmatch] at this
    simpa using this.symm
  obtain ⟨cps₁, c, cps₂, rfl, hpos, hc1, hc2, henc⟩ :=
    flatMap_block_ED cps hv _ hgot
  have hlen3 : (encode_utf8 c).length = 3 := by rw [henc]; rfl
  have hsplit : (cps₁ ++ c :: cps₂).flatMap encode_utf8
      = (cps₁.flatMap encode_utf8 ++ encode_utf8 c)
          ++ cps₂.flatMap encode_utf8 := by
    rw [List.flatMap_append, List.flatMap_cons, List.append_assoc]
  have hnil : cps₂ = [] := by
    apply flatMap_eq_nil
    have hlentot := congrArg List.length hsplit
    rw [List.length_append, List.length_append, hlen3] at hlentot
    have : (cps₂.flatMap encode_utf8).length = 0 := by omega
    exact List.length_eq_zero.mp this
  subst hnil
  have hdropeq : ((cps₁ ++ [c]).flatMap encode_utf8).drop
      (((cps₁ ++ [c]).flatMap encode_utf8).length - 3)
      = encode_utf8 c := by
    have hb : (cps₁ ++ [c]).flatMap encode_utf8
        = cps₁.flatMap encode_utf8 ++ encode_utf8 c := by
      rw [List.flatMap_append, List.flatMap_cons, List.flatMap_nil,
        List.append_nil]
    rw [hb]
    apply List.drop_left'
    rw [List.length_append, hlen3]
    omega
  have hface : encode_utf8 c = [0xED, b2, b3] := by
    rw [← hdropeq, hmatch]
  rw [henc] at hface
  obtain ⟨-, hb2, hb3⟩ : (0xED : Nat) = 0xED
      ∧ 0x80 + c / 64 % 64 = b2 ∧ 0x80 + c % 64 = b3 := by
    simpa using hface
  have hc8 : 0xD800 ≤ c ∧ c ≤ 0xDBFF := by omega
  have hcl : decode_surrogate b2 b3 = c := by
    rw [← hb2, ← hb3]
    exact decode_surrogate_encode hc8.1 (by omega)
  rw [hcl]
  exact ⟨cps₁, rfl, hc8.1, hc8.2, by
    have hb : (cps₁ ++ [c]).flatMap encode_utf8
        = cps₁.flatMap encode_utf8 ++ encode_utf8 c := by
      rw [List.flatMap_append, List.flatMap_cons, List.flatMap_nil,
        List.append_nil]
    rw [hb, List.length_append, hlen3]
    omega⟩

theorem initial_trail_of_head {c : Nat} (cps' : List Nat) (h1 : 0xDC00 ≤ c)
    (h2 : c ≤ 0xDFFF) :
    initial_trail_surrogate ((c :: cps').flatMap encode_utf8) = some c := by
  have henc : encode_utf8 c = [0xED, 0x80 + c / 64 % 64, 0x80 + c % 64] :=
    encode_utf8_surrogate (by omega) h2
  have hb : (c :: cps').flatMap encode_utf8
      = [0xED, 0x80 + c / 64 % 64, 0x80 + c % 64] ++ cps'.flatMap encode_utf8 := by
    rw [List.flatMap_cons, henc]
  rw [hb]
  unfold initial_trail_surrogate
  rw [if_neg (by rw [List.length_append]; simp)]
  have htake : ([0xED, 0x80 + c / 64 % 64, 0x80 + c % 64]
      ++ cps'.flatMap encode_utf8).take 3
      = [0xED, 0x80 + c / 64 % 64, 0x80 + c % 64] := by
    apply List.take_left'
    rfl
  rw [htake]
  show (if (0xED : Nat) = 0xED ∧ 0xB0 ≤ 0x80 + c / 64 % 64
      ∧ 0x80 + c / 64 % 64 ≤ 0xBF then
    some (decode_surrogate (0x80 + c / 64 % 64) (0x80 + c % 64)) else none)
    = some c
  rw [if_pos ⟨rfl, by omega, by omega⟩, decode_surrogate_encode (by omega) h2]

/-- Hard direction: a reported initial trail surrogate really is the first
code point, encoded in the first 3 bytes. -/
theorem initial_trail_some {cps : List Nat} {trail : Nat}
    (hv : ∀ c ∈ cps, c ≤ 0x10FFFF)
    (h : initial_trail_surrogate (cps.flatMap encode_utf8) = some trail) :
    ∃ cps', cps = trail :: cps' ∧ 0xDC00 ≤ trail ∧ trail ≤ 0xDFFF := by
  unfold initial_trail_surrogate at h
  split_ifs at h with hlen
  obtain ⟨a, b2, b3, hmatch⟩ : ∃ a b2 b3,
      (cps.flatMap encode_utf8).take 3 = [a, b2, b3] := by
    apply List.length_eq_three.mp
    rw [List.length_take]
    omega
  rw [hmatch] at h
  replace h : (if a = 0xED ∧ 0xB0 ≤ b2 ∧ b2 ≤ 0xBF then
      some (decode_surrogate b2 b3) else none) = some trail := h
  split_ifs at h with hguard
  obtain ⟨rfl, hg2, hg3⟩ := hguard
  obtain rfl : decode_surrogate b2 b3 = trail := by simpa using h
  cases cps with
  | nil => simp at hlen
  | cons c cps' =>
    have hvc : c ≤ 0x10FFFF := hv c (by simp)
    have hhead : (encode_utf8 c).get? 0 = some 0xED := by
      have h0 : ((c :: cps').flatMap encode_utf8).get? 0 = some 0xED := by
        have ht := congrArg (fun l : List Nat => l.get? 0) hmatch
        simp only at ht
        rw [List.get?_take (show 0 < 3 by omega)] at ht
        simpa using ht
      rw [List.flatMap_cons,
        List.get?_append (encode_utf8_length_pos c)] at h0
      exact h0
    obtain ⟨hc1, hc2, henc⟩ := encode_utf8_head_ED hvc hhead
    have hlen3 : (encode_utf8 c).length = 3 := by rw [henc]; rfl
    have htake : ((c :: cps').flatMap encode_utf8).take 3 = encode_utf8 c := by
      rw [List.flatMap_cons]
      exact List.take_left' hlen3
    have hface : encode_utf8 c = [0xED, b2, b3] := by rw [← htake, hmatch]
    rw [henc] at hface
    obtain ⟨-, hb2, hb3⟩ : (0xED : Nat) = 0xED
        ∧ 0x80 + c / 64 % 64 = b2 ∧ 0x80 + c % 64 = b3 := by
      simpa using hface
    have hc4 : 0xDC00 ≤ c ∧ c ≤ 0xDFFF := by omega
    have hcl : decode_surrogate b2 b3 = c := by
      rw [← hb2, ← hb3]
      exact decode_surrogate_encode (by omega) hc4.2
    rw [hcl]
    exact ⟨cps', rfl, hc4.1, hc4.2⟩

/-! ### Preservation of well-formedness -/

theorem chain'_of_no_surrogate {s : List Nat} (h : ∀ c ∈ s, ¬ isSurrogate c) :
    List.Chain' NoJoinPair s := by
  induction s with
  | nil => exact List.chain'_nil
  | cons a s ih =>
    rw [List.chain'_cons']
    refine ⟨?_, ih fun x hx => h x (by simp [hx])⟩
    intro y _ hp
    have ha := h a (by simp)
    rw [isSurrogate_iff] at ha
    rw [isLeadSurrogate_iff] at hp
    exact ha ⟨hp.1.1, by have := hp.1.2; omega⟩

theorem not_lead_of_large {c : Nat} (h : 0x10000 ≤ c) : ¬ isLeadSurrogate c := by
  rw [isLeadSurrogate_iff]
  omega

theorem not_trail_of_large {c : Nat} (h : 0x10000 ≤ c) : ¬ isTrailSurrogate c := by
  rw [isTrailSurrogate_iff]
  omega

/-- Appending one code point's encoding preserves well-formedness, provided
no new surrogate pair forms at the junction. -/
theorem WfWtf8_concat {cps : List Nat} (hv : ∀ x ∈ cps, x ≤ 0x10FFFF)
    (hch : List.Chain' NoJoinPair cps) {c : Nat} (hc : c ≤ 0x10FFFF)
    (hj : ∀ l ∈ cps.getLast?, NoJoinPair l c) :
    WfWtf8 (cps.flatMap encode_utf8 ++ encode_utf8 c) := by
  refine ⟨cps ++ [c], ?_, ?_, ?_⟩
  · intro x hx
    rcases List.mem_append.mp hx with hx | hx
    · exact hv x hx
    · obtain rfl : x = c := by simpa using hx
      exact hc
  · rw [List.chain'_append]
    refine ⟨hch, List.chain'_singleton c, fun x hx y hy => ?_⟩
    obtain rfl : c = y := by simpa using hy
    exact hj x hx
  · rw [List.flatMap_append, List.flatMap_cons, List.flatMap_nil,
      List.append_nil]

theorem WfWtf8_push {bytes : List Nat} (h : WfWtf8 bytes) {cp : Nat}
    (hcp : cp ≤ 0x10FFFF) : WfWtf8 (push bytes cp) := by
  obtain ⟨cps, hv, hch, rfl⟩ := h
  unfold push
  split_ifs with htr
  · cases hfl : final_lead_surrogate (cps.flatMap encode_utf8) with
    | none =>
      simp only [hfl]
      unfold push_code_point_unchecked
      apply WfWtf8_concat hv hch hcp
      intro l hl hp
      rw [isLeadSurrogate_iff] at hp
      rw [final_lead_of_getLast (Option.mem_def.mp hl) hp.1.1 hp.1.2] at hfl
      exact Option.noConfusion hfl
    | some lead =>
      simp only [hfl]
      obtain ⟨cps₀, rfl, hl1, hl2, -⟩ := final_lead_some hv hfl
      have henc3 : (encode_utf8 lead).length = 3 := by
        rw [encode_utf8_surrogate hl1 (by omega)]
        rfl
      have hb : (cps₀ ++ [lead]).flatMap encode_utf8
          = cps₀.flatMap encode_utf8 ++ encode_utf8 lead := by
        rw [List.flatMap_append, List.flatMap_cons, List.flatMap_nil,
          List.append_nil]
      have htake : ((cps₀ ++ [lead]).flatMap encode_utf8).take
          (((cps₀ ++ [lead]).flatMap encode_utf8).length - 3)
          = cps₀.flatMap encode_utf8 := by
        rw [hb, List.length_append, henc3]
        have e : (cps₀.flatMap encode_utf8).length + 3 - 3
            = (cps₀.flatMap encode_utf8).length := by omega
        rw [e, List.take_left]
      rw [htake]
      have hrange := decode_surrogate_pair_range hl1 hl2 htr.1 htr.2
      apply WfWtf8_concat (fun x hx => hv x (by simp [hx]))
        ((List.chain'_append.mp hch).1) hrange.2
      intro l _ hp
      exact not_trail_of_large hrange.1 hp.2
  · unfold push_code_point_unchecked
    apply WfWtf8_concat hv hch hcp
    intro l _ hp
    rw [isTrailSurrogate_iff] at hp
    exact htr hp.2

theorem WfWtf8_push_wtf8 {bytes other : List Nat} (h : WfWtf8 bytes)
    (ho : WfWtf8 other) : WfWtf8 (push_wtf8 bytes other) := by
  obtain ⟨cps, hv, hch, rfl⟩ := h
  obtain ⟨cps', hv', hch', rfl⟩ := ho
  unfold push_wtf8
  cases hfl : final_lead_surrogate (cps.flatMap encode_utf8) with
  | none =>
    simp only [hfl]
    refine ⟨cps ++ cps', ?_, ?_, (List.flatMap_append ..).symm⟩
    · intro x hx
      rcases List.mem_append.mp hx with hx | hx
      · exact hv x hx
      · exact hv' x hx
    · rw [List.chain'_append]
      refine ⟨hch, hch', fun x hx y _ hp => ?_⟩
      rw [isLeadSurrogate_iff] at hp
      rw [final_lead_of_getLast (Option.mem_def.mp hx) hp.1.1 hp.1.2] at hfl
      exact Option.noConfusion hfl
  | some lead =>
    cases hit : initial_trail_surrogate (cps'.flatMap encode_utf8) with
    | none =>
      simp only [hfl, hit]
      refine ⟨cps ++ cps', ?_, ?_, (List.flatMap_append ..).symm⟩
      · intro x hx
        rcases List.mem_append.mp hx with hx | hx
        · exact hv x hx
        · exact hv' x hx
      · rw [List.chain'_append]
        refine ⟨hch, hch', fun x hx y hy hp => ?_⟩
        rw [isTrailSurrogate_iff] at hp
        have hhead : ∃ tl, cps' = y :: tl := by
          cases cps' with
          | nil => simp at hy
          | cons a tl =>
            obtain rfl : a = y := by simpa using hy
            exact ⟨tl, rfl⟩
        obtain ⟨tl, rfl⟩ := hhead
        rw [initial_trail_of_head tl hp.2.1 hp.2.2] at hit
        exact Option.noConfusion hit
    | some trail =>
      simp only [hfl, hit]
      obtain ⟨cps₀, rfl, hl1, hl2, -⟩ := final_lead_some hv hfl
      obtain ⟨cps₂, rfl, ht1, ht2⟩ := initial_trail_some hv' hit
      have henc3 : (encode_utf8 lead).length = 3 := by
        rw [encode_utf8_surrogate hl1 (by omega)]
        rfl
      have henct3 : (encode_utf8 trail).length = 3 := by
        rw [encode_utf8_surrogate (by omega) ht2]
        rfl
      have hb : (cps₀ ++ [lead]).flatMap encode_utf8
          = cps₀.flatMap encode_utf8 ++ encode_utf8 lead := by
        rw [List.flatMap_append, List.flatMap_cons, List.flatMap_nil,
          List.append_nil]
      have htake : ((cps₀ ++ [lead]).flatMap encode_utf8).take
          (((cps₀ ++ [lead]).flatMap encode_utf8).length - 3)
          = cps₀.flatMap encode_utf8 := by
        rw [hb, List.length_append, henc3]
        have e : (cps₀.flatMap encode_utf8).length + 3 - 3
            = (cps₀.flatMap encode_utf8).length := by omega
        rw [e, List.take_left]
      have hdrop : ((trail :: cps₂).flatMap encode_utf8).drop 3
          = cps₂.flatMap encode_utf8 := by
        rw [List.flatMap_cons]
        exact List.drop_left' henct3
      rw [htake, hdrop]
      have hrange := decode_surrogate_pair_range hl1 hl2 ht1 ht2
      refine ⟨cps₀ ++ decode_surrogate_pair lead trail :: cps₂, ?_, ?_, ?_⟩
      · intro x hx
        rcases List.mem_append.mp hx with hx | hx
        · exact hv x (by simp [hx])
        · rcases List.mem_cons.mp hx with rfl | hx
          · exact hrange.2
          · exact hv' x (by simp [hx])
      · rw [List.chain'_append]
        refine ⟨(List.chain'_append.mp hch).1, ?_, ?_⟩
        · rw [List.chain'_cons']
          refine ⟨fun y _ hp => not_lead_of_large hrange.1 hp.1,
            List.Chain'.tail hch'⟩
        · intro x _ y hy hp
          obtain rfl : decode_surrogate_pair lead trail = y := by
            simpa using hy
          exact not_trail_of_large hrange.1 hp.2
      · rw [List.flatMap_append, List.flatMap_cons, List.append_assoc]

theorem WfWtf8_push_str {bytes s : List Nat} (h : WfWtf8 bytes)
    (hs : ∀ c ∈ s, c ≤ 0x10FFFF ∧ ¬ isSurrogate c) :
    WfWtf8 (push_str bytes s) := by
  obtain ⟨cps, hv, hch, rfl⟩ := h
  unfold push_str
  refine ⟨cps ++ s, ?_, ?_, (List.flatMap_append ..).symm⟩
  · intro x hx
    rcases List.mem_append.mp hx with hx | hx
    · exact hv x hx
    · exact (hs x hx).1
  · rw [List.chain'_append]
    refine ⟨hch, chain'_of_no_surrogate fun c hc => (hs c hc).2,
      fun x _ y hy hp => ?_⟩
    have hhead : y ∈ s := by
      cases s with
      | nil => simp at hy
      | cons a tl =>
        obtain rfl : a = y := by simpa using hy
        simp
    have := (hs y hhead).2
    rw [isSurrogate_iff] at this
    rw [isTrailSurrogate_iff] at hp
    exact this ⟨by omega, hp.2.2⟩

theorem WfWtf8_push_char {bytes : List Nat} (h : WfWtf8 bytes) {c : Nat}
    (hc : c ≤ 0x10FFFF) (hcs : ¬ isSurrogate c) :
    WfWtf8 (push_char bytes c) := by
  obtain ⟨cps, hv, hch, rfl⟩ := h
  unfold push_char push_code_point_unchecked
  apply WfWtf8_concat hv hch hc
  intro l _ hp
  rw [isSurrogate_iff] at hcs
  rw [isTrailSurrogate_iff] at hp
  exact hcs ⟨by omega, hp.2.2⟩

/-- A code-point boundary splits the code-point list. -/
theorem boundary_block {cps : List Nat} {n : Nat}
    (hb : is_code_point_boundary (cps.flatMap encode_utf8) n = true) :
    ∃ cps₁ cps₂, cps = cps₁ ++ cps₂
      ∧ (cps₁.flatMap encode_utf8).length = n := by
  unfold is_code_point_boundary at hb
  split_ifs at hb with hlen
  · exact ⟨cps, [], (List.append_nil _).symm, hlen.symm⟩
  · cases hget : (cps.flatMap encode_utf8).get? n with
    | none => rw [hget] at hb; exact absurd hb (by simp)
    | some b =>
      rw [hget] at hb
      have hbb : b < 128 ∨ 192 ≤ b := by
        simpa using hb
      have hn : n < (cps.flatMap encode_utf8).length :=
        List.get?_eq_some.mp hget |>.choose
      rcases flatMap_position cps n hn with
        ⟨cps₁, c, cps₂, rfl, hlen1⟩ | ⟨b', hb', h1, h2⟩
      · exact ⟨cps₁, c :: cps₂, rfl, hlen1⟩
      · rw [hget] at hb'
        obtain rfl : b = b' := by simpa using hb'
        omega

theorem WfWtf8_truncate {bytes : List Nat} (h : WfWtf8 bytes) {n : Nat}
    {bytes' : List Nat} (ht : truncate bytes n = some bytes') :
    WfWtf8 bytes' := by
  obtain ⟨cps, hv, hch, rfl⟩ := h
  unfold truncate at ht
  split_ifs at ht with hbd
  obtain rfl : (cps.flatMap encode_utf8).take n = bytes' := by simpa using ht
  obtain ⟨cps₁, cps₂, rfl, hlen1⟩ := boundary_block hbd
  refine ⟨cps₁, fun x hx => hv x (by simp [hx]),
    (List.chain'_append.mp hch).1, ?_⟩
  rw [List.flatMap_append, ← hlen1, List.take_left]

theorem WfWtf8_clear (bytes : List Nat) : WfWtf8 (clear bytes) :=
  ⟨[], by simp, List.chain'_nil, rfl⟩

/-! ### Boundary lemmas -/

theorem flatMap_head_not_cont {cps : List Nat} (hv : ∀ c ∈ cps, c ≤ 0x10FFFF)
    {b : Nat} (h : (cps.flatMap encode_utf8).get? 0 = some b) :
    b < 0x80 ∨ 0xC0 ≤ b := by
  cases cps with
  | nil => exact absurd h (by simp)
  | cons c cps' =>
    rw [List.flatMap_cons, List.get?_append (encode_utf8_length_pos c)] at h
    obtain ⟨b', t, henc, hb'⟩ := encode_utf8_head_not_cont c (hv c (by simp))
    rw [henc] at h
    obtain rfl : b' = b := by simpa using h
    exact hb'

theorem boundary_zero {cps : List Nat} (hv : ∀ c ∈ cps, c ≤ 0x10FFFF) :
    is_code_point_boundary (cps.flatMap encode_utf8) 0 = true := by
  unfold is_code_point_boundary
  split_ifs with h0
  · rfl
  · cases hget : (cps.flatMap encode_utf8).get? 0 with
    | none =>
      have := List.get?_eq_none.mp hget
      omega
    | some b =>
      have := flatMap_head_not_cont hv hget
      show (decide (b < 128) || decide (192 ≤ b)) = true
      simp only [Bool.or_eq_true, decide_eq_true_eq]
      omega

theorem boundary_length (bytes : List Nat) :
    is_code_point_boundary bytes bytes.length = true := by
  unfold is_code_point_boundary
  rw [if_pos rfl]

theorem decode_surrogate_range (b2 b3 : Nat) :
    0xD800 ≤ decode_surrogate b2 b3 ∧ decode_surrogate b2 b3 ≤ 0xDFFF := by
  unfold decode_surrogate
  rw [and_63, and_63, Nat.shiftLeft_eq]
  have h26 : (2 : Nat) ^ 6 = 64 := by norm_num
  rw [h26]
  rcases Nat.lt_or_ge (b2 % 64) 32 with hm | hm
  · have e1 : (0xD800 : Nat) ||| (b2 % 64 * 64) = 0xD800 + b2 % 64 * 64 :=
      lor_eq_add 11 (by norm_num) (by omega)
    rw [e1, lor_eq_add 6 (by omega) (by omega)]
    omega
  · rw [lor_D800 _ (by omega) (by omega),
      lor_eq_add 6 (by omega) (by omega)]
    omega

/-! ### Claim theorems -/

/-- C1: For every sequence `U` of 16-bit code units, possibly containing
unpaired surrogates, building a buffer with `Wtf8Buf::from_wide(U)` and then
collecting the units produced by `encode_wide()` yields exactly `U`. -/
theorem from_wide_encode_wide_id (U : List Nat) (hU : ∀ u ∈ U, u < 0x10000) :
    encode_wide (from_wide U) = U := by
  rw [from_wide_eq]
  unfold encode_wide
  rw [code_points_bind _ (decode_utf16_le U hU)]
  exact decode_utf16_encode_utf16 U hU

theorem from_wide_encode_wide_id_witness :
    encode_wide (from_wide [0x61, 0xD800]) = [0x61, 0xD800] :=
  from_wide_encode_wide_id [0x61, 0xD800] (by decide)

/-- C2: Every public mutation of a `Wtf8Buf` (`push`, `push_wtf8`,
`push_str`, `push_char`, `truncate`, `clear`), started on a buffer whose
bytes are well-formed WTF-8, returns with the buffer's bytes again
well-formed WTF-8. -/
theorem wtf8buf_mutations_preserve_wf (bytes : List Nat) (h : WfWtf8 bytes) :
    (∀ cp, cp ≤ 0x10FFFF → WfWtf8 (push bytes cp)) ∧
    (∀ other, WfWtf8 other → WfWtf8 (push_wtf8 bytes other)) ∧
    (∀ s, (∀ c ∈ s, c ≤ 0x10FFFF ∧ ¬ isSurrogate c) →
      WfWtf8 (push_str bytes s)) ∧
    (∀ c, c ≤ 0x10FFFF → ¬ isSurrogate c → WfWtf8 (push_char bytes c)) ∧
    (∀ n bytes', truncate bytes n = some bytes' → WfWtf8 bytes') ∧
    WfWtf8 (clear bytes) :=
  ⟨fun _ hcp => WfWtf8_push h hcp,
   fun _ ho => WfWtf8_push_wtf8 h ho,
   fun _ hs => WfWtf8_push_str h hs,
   fun _ hc hcs => WfWtf8_push_char h hc hcs,
   fun _ _ ht => WfWtf8_truncate h ht,
   WfWtf8_clear bytes⟩

theorem wtf8buf_mutations_preserve_wf_witness :
    WfWtf8 (push [0x61] 0x10000) :=
  (wtf8buf_mutations_preserve_wf [0x61]
    ⟨[0x61], by decide, List.chain'_singleton _, by decide⟩).1 0x10000 (by decide)

/-- C3: Pushing the code point U+D800 and then U+DC00 into an empty
`Wtf8Buf` via `push` yields a buffer whose bytes equal those of an empty
buffer into which the single combined scalar U+10000 was pushed directly. -/
theorem push_surrogate_pair_eq_push_scalar :
    push (push [] 0xD800) 0xDC00 = push [] 0x10000
    ∧ push (push [] 0xD800) 0xDC00 = [0xF0, 0x90, 0x80, 0x80] := by decide

/-- C4: For every well-formed `Wtf8Buf`, `into_string` returns the buffer's
bytes as UTF-8 text iff the buffer contains no surrogate code point; when it
fails, the failure value is the original buffer with its bytes unchanged. -/
theorem into_string_ok_iff_no_surrogate (bytes : List Nat) (h : WfWtf8 bytes) :
    (into_string bytes = Except.ok bytes
      ↔ ∀ c ∈ code_points bytes, ¬ isSurrogate c) ∧
    (into_string bytes = Except.ok bytes
      ∨ into_string bytes = Except.error bytes) := by
  obtain ⟨cps, hv, hch, rfl⟩ := h
  rw [code_points_bind cps hv]
  unfold into_string
  cases hns : next_surrogate (cps.flatMap encode_utf8) 0 with
  | none =>
    exact ⟨⟨fun _ => (next_surrogate_none_iff cps hv).mp hns, fun _ => rfl⟩,
      Or.inl rfl⟩
  | some x =>
    refine ⟨⟨fun hc => Except.noConfusion hc, fun hno => ?_⟩, Or.inr rfl⟩
    rw [(next_surrogate_none_iff cps hv).mpr hno] at hns
    exact Option.noConfusion hns

theorem into_string_ok_iff_no_surrogate_witness :
    (into_string [0xED, 0xA0, 0x80] = Except.ok [0xED, 0xA0, 0x80]
      ↔ ∀ c ∈ code_points [0xED, 0xA0, 0x80], ¬ isSurrogate c) ∧
    (into_string [0xED, 0xA0, 0x80] = Except.ok [0xED, 0xA0, 0x80]
      ∨ into_string [0xED, 0xA0, 0x80] = Except.error [0xED, 0xA0, 0x80]) :=
  into_string_ok_iff_no_surrogate [0xED, 0xA0, 0x80]
    ⟨[0xD800], by decide, List.chain'_singleton _, by decide⟩

/-- C5: For every well-formed Wtf8 view, `to_string_lossy` returns the
identical byte content when no surrogate is present; otherwise each 3-byte
surrogate encoding is replaced, at its position, by the 3-byte UTF-8
encoding of U+FFFD and every other code point's bytes are unchanged. -/
theorem to_string_lossy_replaces_surrogates (bytes : List Nat)
    (h : WfWtf8 bytes) :
    to_string_lossy bytes
      = ((code_points bytes).map replace_surrogate).flatMap encode_utf8 ∧
    ((∀ c ∈ code_points bytes, ¬ isSurrogate c) →
      to_string_lossy bytes = bytes) := by
  obtain ⟨cps, hv, hch, rfl⟩ := h
  rw [code_points_bind cps hv]
  constructor
  · unfold to_string_lossy
    cases hns : next_surrogate (cps.flatMap encode_utf8) 0 with
    | none =>
      exact (flatMap_encode_no_surrogate cps
        ((next_surrogate_none_iff cps hv).mp hns)).symm
    | some x => exact lossy_loop_flatMap cps hv
  · intro hall
    unfold to_string_lossy
    rw [(next_surrogate_none_iff cps hv).mpr hall]

theorem to_string_lossy_replaces_surrogates_witness :
    to_string_lossy [0x61, 0xED, 0xA0, 0x80]
      = ((code_points [0x61, 0xED, 0xA0, 0x80]).map
          replace_surrogate).flatMap encode_utf8 ∧
    ((∀ c ∈ code_points [0x61, 0xED, 0xA0, 0x80], ¬ isSurrogate c) →
      to_string_lossy [0x61, 0xED, 0xA0, 0x80] = [0x61, 0xED, 0xA0, 0x80]) :=
  to_string_lossy_replaces_surrogates [0x61, 0xED, 0xA0, 0x80]
    ⟨[0x61, 0xD800], by decide, by
      rw [List.chain'_cons']
      exact ⟨fun y hy => by
        obtain rfl : (0xD800 : Nat) = y := by simpa using hy
        exact fun hp => by
          have := isLeadSurrogate_iff.mp hp.1
          omega,
        List.chain'_singleton _⟩, by decide⟩

/-- C6 (counterexample): the claim's boundary criterion, with continuation
bytes taken to be the half-open range [0x80, 0xBF), fails on the
well-formed sequence [0xDF, 0xBF] at offset 1: byte 0xBF is a continuation
byte for the code, but not per the claim's range. -/
theorem code_point_boundary_claim_cex :
    WfWtf8 [0xDF, 0xBF] ∧
    ¬(is_code_point_boundary [0xDF, 0xBF] 1 = true
      ↔ ((1 : Nat) = 0 ∨ (1 : Nat) = [0xDF, 0xBF].length
          ∨ ∃ b, [0xDF, 0xBF].get? 1 = some b ∧ ¬(0x80 ≤ b ∧ b < 0xBF))) := by
  refine ⟨⟨[0x7FF], by decide, List.chain'_singleton _, by decide⟩, ?_⟩
  intro hiff
  exact absurd (hiff.mpr (Or.inr (Or.inr ⟨0xBF, by decide, by decide⟩)))
    (by decide)

/-- C6 (amended): for every well-formed WTF-8 sequence `s` and byte offset
`i`, `is_code_point_boundary s i` is true iff `i` is 0, `i` is the length of
`s`, or the byte at `i` is not a UTF-8 continuation byte, where a
continuation byte is a value in [0x80, 0xC0). -/
theorem is_code_point_boundary_iff (s : List Nat) (h : WfWtf8 s) (i : Nat) :
    is_code_point_boundary s i = true
      ↔ (i = 0 ∨ i = s.length
          ∨ ∃ b, s.get? i = some b ∧ ¬(0x80 ≤ b ∧ b < 0xC0)) := by
  obtain ⟨cps, hv, -, rfl⟩ := h
  unfold is_code_point_boundary
  split_ifs with hlen
  · exact ⟨fun _ => Or.inr (Or.inl hlen), fun _ => rfl⟩
  · cases hget : (cps.flatMap encode_utf8).get? i with
    | none =>
      have hge := List.get?_eq_none.mp hget
      constructor
      · intro hfalse
        exact absurd hfalse (by simp)
      · rintro (rfl | rfl | ⟨b, hb, -⟩)
        · exact absurd (by omega) hlen
        · exact absurd rfl hlen
        · exact Option.noConfusion hb
    | some b =>
      show (decide (b < 128) || decide (192 ≤ b)) = true ↔ _
      simp only [Bool.or_eq_true, decide_eq_true_eq]
      constructor
      · intro hb
        exact Or.inr (Or.inr ⟨b, rfl, by omega⟩)
      · rintro (rfl | rfl | ⟨b', hb', hnb⟩)
        · exact flatMap_head_not_cont hv hget
        · exact absurd rfl hlen
        · obtain rfl : b = b' := by simpa using hb'
          omega

theorem is_code_point_boundary_iff_witness :
    is_code_point_boundary [0xDF, 0xBF] 1 = true
      ↔ ((1 : Nat) = 0 ∨ (1 : Nat) = [0xDF, 0xBF].length
          ∨ ∃ b, [0xDF, 0xBF].get? 1 = some b ∧ ¬(0x80 ≤ b ∧ b < 0xC0)) :=
  is_code_point_boundary_iff [0xDF, 0xBF]
    ⟨[0x7FF], by decide, List.chain'_singleton _, by decide⟩ 1

/-- C7 (counterexample): range-indexing at two offsets that are both
code-point boundaries does trigger the fatal slice error when the range is
reversed: on the well-formed sequence [0x61], offsets 1 and 0 are both
boundaries, yet `s[1..0]` panics (`index_range` returns `none`). -/
theorem index_range_boundary_claim_cex :
    WfWtf8 [0x61]
    ∧ is_code_point_boundary [0x61] 1 = true
    ∧ is_code_point_boundary [0x61] 0 = true
    ∧ index_range [0x61] 1 0 = none :=
  ⟨⟨[0x61], by decide, List.chain'_singleton _, by decide⟩,
   by decide, by decide, by decide⟩

/-- C7 (amended): for every well-formed WTF-8 sequence,
`is_code_point_boundary` is true at offset 0 and at the length, and
range-indexing at any two boundaries `b ≤ e` never triggers the fatal slice
error. -/
theorem boundary_slicing_safe (s : List Nat) (h : WfWtf8 s) :
    is_code_point_boundary s 0 = true
    ∧ is_code_point_boundary s s.length = true
    ∧ ∀ b e, b ≤ e → is_code_point_boundary s b = true
      → is_code_point_boundary s e = true → (index_range s b e).isSome := by
  obtain ⟨cps, hv, -, rfl⟩ := h
  refine ⟨boundary_zero hv, boundary_length _, ?_⟩
  intro b e hbe hb he
  unfold index_range
  rw [if_pos ⟨hbe, hb, he⟩]
  rfl

theorem boundary_slicing_safe_witness :
    is_code_point_boundary [0x61] 0 = true
    ∧ is_code_point_boundary [0x61] ([0x61] : List Nat).length = true
    ∧ ∀ b e, b ≤ e → is_code_point_boundary [0x61] b = true
      → is_code_point_boundary [0x61] e = true
      → (index_range [0x61] b e).isSome :=
  boundary_slicing_safe [0x61]
    ⟨[0x61], by decide, List.chain'_singleton _, by decide⟩

/-- C8: for every 32-bit value `v` with `v ≤ 0x10FFFF`,
`CodePoint::from_u32 v` returns a code point whose `to_u32` equals `v`; for
every `v > 0x10FFFF`, it returns `None`. -/
theorem from_u32_roundtrip (v : Nat) (hv : v < 2 ^ 32) :
    (v ≤ 0x10FFFF → ∃ c, CodePoint.from_u32 v = some c ∧ c.to_u32 = v) ∧
    (0x10FFFF < v → CodePoint.from_u32 v = none) := by
  constructor
  · intro h
    refine ⟨⟨v⟩, ?_, rfl⟩
    unfold CodePoint.from_u32
    rw [if_pos h]
  · intro h
    unfold CodePoint.from_u32
    rw [if_neg (by omega)]

theorem from_u32_roundtrip_witness :
    ((0x10FFFF : Nat) ≤ 0x10FFFF
      → ∃ c, CodePoint.from_u32 0x10FFFF = some c ∧ c.to_u32 = 0x10FFFF) ∧
    ((0x10FFFF : Nat) < 0x10FFFF → CodePoint.from_u32 0x10FFFF = none) :=
  from_u32_roundtrip 0x10FFFF (by norm_num)

/-- C9: for all continuation bytes `b2, b3` following a 0xED lead byte, the
value of `decode_surrogate b2 b3` equals
`0xD800 | ((b2 & 0x3F) << 6) | (b3 & 0x3F)`, and the arithmetic is exact in
16 bits: the value is below 2^16 (indeed a surrogate in
[0xD800, 0xDFFF]). -/
theorem decode_surrogate_formula (b2 b3 : Nat)
    (h2 : 0x80 ≤ b2 ∧ b2 ≤ 0xBF) (h3 : 0x80 ≤ b3 ∧ b3 ≤ 0xBF) :
    decode_surrogate b2 b3
        = (0xD800 ||| ((b2 &&& 0x3F) <<< 6)) ||| (b3 &&& 0x3F)
    ∧ decode_surrogate b2 b3 < 2 ^ 16
    ∧ 0xD800 ≤ decode_surrogate b2 b3 ∧ decode_surrogate b2 b3 ≤ 0xDFFF := by
  have hr := decode_surrogate_range b2 b3
  exact ⟨rfl, by omega, hr⟩

theorem decode_surrogate_formula_witness :
    decode_surrogate 0xA0 0x80
        = (0xD800 ||| ((0xA0 &&& 0x3F) <<< 6)) ||| (0x80 &&& 0x3F)
    ∧ decode_surrogate 0xA0 0x80 < 2 ^ 16
    ∧ 0xD800 ≤ decode_surrogate 0xA0 0x80
    ∧ decode_surrogate 0xA0 0x80 ≤ 0xDFFF :=
  decode_surrogate_formula 0xA0 0x80 (by decide) (by decide)

/-- C10: for every well-formed WTF-8 sequence `s` and every index `i`
strictly greater than the length of `s`, `is_code_point_boundary s i`
returns `false` rather than failing: it is a total boolean function. -/
theorem is_code_point_boundary_out_of_bounds (s : List Nat) (h : WfWtf8 s)
    (i : Nat) (hi : s.length < i) : is_code_point_boundary s i = false := by
  unfold is_code_point_boundary
  rw [if_neg (by omega), List.get?_eq_none.mpr (by omega)]

theorem is_code_point_boundary_out_of_bounds_witness :
    is_code_point_boundary [0x61] 2 = false :=
  is_code_point_boundary_out_of_bounds [0x61]
    ⟨[0x61], by decide, List.chain'_singleton _, by decide⟩ 2 (by decide)

end Wtf8
